import Mathlib

/-!
Verification of the asset-resolution core of `install-github-release-binary`.

Strings from the TypeScript source are modelled as `List Char` (`Str`),
optional values as `Option`, thrown errors as explicit result constructors.
Definitions are translated from `src/platform.ts`, `fetch.ts` and the
installer sources; modules whose source is absent (`types.ts`, `parse.ts`)
are modelled from the specification and marked as such.
-/

deriving instance DecidableEq for Except

/-- Strings of the TypeScript program, modelled as lists of characters. -/
abbrev Str := List Char

/-- Convert a Lean string literal to the `Str` model. -/
def str (s : String) : Str := s.data

/-- JavaScript `value.endsWith(pat)`. -/
def endsWith (v pat : Str) : Bool := decide (pat <:+ v)

/-! ## Semantic-version grammar (modelled from the spec)

The module `types.ts` (defining `isExactSemanticVersion`) is not among the
provided sources; it is modelled from the spec, §3 and §4.2:
a `SemanticVersion` is `v` followed by 1–3 dot-separated numeric components,
an optional `-` + prerelease (dot-separated alphanumeric/hyphen groups) and
an optional `+` + build metadata (dot-separated alphanumeric/hyphen groups);
it is *exact* iff all three numeric components are present. -/

/-- A character allowed inside a prerelease or build-metadata group. -/
def identChar (c : Char) : Bool := c.isAlphanum || c = '-'

/-- Modelled from the spec: dot-separated nonempty groups of
alphanumeric/hyphen characters (build metadata).  `seen` records whether the
current group already holds at least one character. -/
def groupsOkAux (seen : Bool) : Str → Bool
  | [] => seen
  | c :: cs =>
    if c = '.' then seen && groupsOkAux false cs
    else identChar c && groupsOkAux true cs

/-- Modelled from the spec: a prerelease (dot-separated alphanumeric/hyphen
groups), optionally followed by `+` and build metadata. -/
def preGroupsOkAux (seen : Bool) : Str → Bool
  | [] => seen
  | c :: cs =>
    if c = '.' then seen && preGroupsOkAux false cs
    else if c = '+' then seen && groupsOkAux false cs
    else identChar c && preGroupsOkAux true cs

/-- Modelled from the spec: parse the dot-separated numeric components after
the leading `v` (at most 3, each nonempty), then accept an optional
prerelease and/or build-metadata suffix.  `seen` records whether the current
component already holds a digit; `n` counts the completed components.
Returns the total number of numeric components when the string is a
well-formed `SemanticVersion`. -/
def compsAux (seen : Bool) (n : Nat) : Str → Option Nat
  | [] => if seen && n + 1 ≤ 3 then some (n + 1) else none
  | c :: cs =>
    if c.isDigit then compsAux true n cs
    else if c = '.' then
      if seen then compsAux false (n + 1) cs else none
    else if c = '-' then
      if seen && n + 1 ≤ 3 && preGroupsOkAux false cs then some (n + 1) else none
    else if c = '+' then
      if seen && n + 1 ≤ 3 && groupsOkAux false cs then some (n + 1) else none
    else none

/-- Modelled from the spec: the shape of a `SemanticVersion` string: `none`
if malformed, otherwise the number of numeric components (1–3). -/
def semverShape (s : Str) : Option Nat :=
  match s with
  | 'v' :: rest => compsAux false 0 rest
  | _ => none

/-- Modelled from the spec: the `SemanticVersion` grammar of §4.2. -/
def isSemanticVersion (s : Str) : Bool := (semverShape s).isSome

/-- Modelled from the spec: `isExactSemanticVersion` from the missing module
`types.ts` — a `SemanticVersion` with major, minor and patch all present. -/
def isExactSemanticVersion (s : Str) : Bool := semverShape s = some 3

/-! ## Platform identifier module (`src/platform.ts`) -/

/-- `ALL_TARGET_TRIPLES` from `src/platform.ts`. -/
def ALL_TARGET_TRIPLES : List Str :=
  [str "aarch64-apple-darwin",
   str "aarch64-unknown-linux-musl",
   str "x86_64-apple-darwin",
   str "x86_64-unknown-linux-musl"]

/-- `TARGET_DUPLES` from `src/platform.ts` (hyphen and underscore spellings). -/
def TARGET_DUPLES : List Str :=
  [str "linux-amd64",
   str "linux-arm64",
   str "darwin-amd64",
   str "darwin-arm64",
   str "linux_amd64",
   str "linux_arm64",
   str "darwin_amd64",
   str "darwin_arm64"]

/-- JavaScript `value.replace(new RegExp(pat + "$"), "")` for a literal
pattern `pat`: remove `pat` once if it is a suffix of `value`. -/
def replacePat (v pat : Str) : Str :=
  if endsWith v pat then v.take (v.length - pat.length) else v

/-- One step of the triple-stripping reduce in `stripTargetTriple`:
`value.replace(new RegExp("-" + targetTriple + "$"), "")`. -/
def replaceTriple (v t : Str) : Str := replacePat v ('-' :: t)

/-- One step of the duple-stripping reduce in `stripTargetTriple`:
`value.replace(new RegExp("[-_]" + duple + "$"), "")`. -/
def replaceDuple (v d : Str) : Str :=
  if endsWith v ('-' :: d) || endsWith v ('_' :: d) then
    v.take (v.length - (d.length + 1))
  else v

/-- `stripTargetTriple` from `src/platform.ts`. -/
def stripTargetTriple (value : Str) : Option Str :=
  if value ∈ ALL_TARGET_TRIPLES then none
  else if value ∈ TARGET_DUPLES then none
  else
    let strippedTriple := ALL_TARGET_TRIPLES.foldl replaceTriple value
    if strippedTriple ≠ value then some strippedTriple
    else
      let strippedDuple := TARGET_DUPLES.foldl replaceDuple value
      if strippedDuple ≠ value then some strippedDuple
      else some value

/-- `getTargetDuple` from `src/platform.ts`: hyphen duple for the given
architecture and platform; throws on a platform other than darwin/linux. -/
def getTargetDuple (arch platform : Str) : Except Str Str :=
  if platform = str "darwin" then
    .ok (if arch = str "arm64" then str "darwin-arm64" else str "darwin-amd64")
  else if platform = str "linux" then
    .ok (if arch = str "arm64" then str "linux-arm64" else str "linux-amd64")
  else
    .error (str "Unsupported platform " ++ platform ++
      str " for target duple conversion")

/-- `getTargetDupleUnderscore` from `src/platform.ts`. -/
def getTargetDupleUnderscore (arch platform : Str) : Except Str Str :=
  if platform = str "darwin" then
    .ok (if arch = str "arm64" then str "darwin_arm64" else str "darwin_amd64")
  else if platform = str "linux" then
    .ok (if arch = str "arm64" then str "linux_arm64" else str "linux_amd64")
  else
    .error (str "Unsupported platform " ++ platform ++
      str " for target duple conversion")

/-! ## Version resolver (`fetch.ts`) -/

/-- `Commit` from `fetch.ts`. -/
structure Commit where
  sha : Str
deriving DecidableEq, Repr

/-- `Tag` from `fetch.ts`: one entry of the repository's tag list. -/
structure Tag where
  name : Str
  commit : Commit
deriving DecidableEq, Repr

/-- `RepositorySlug` from `types.ts` (shape given by the spec data model). -/
structure RepositorySlug where
  owner : Str
  repository : Str
deriving DecidableEq, Repr

/-- The mutable state captured by the closure returned by
`semanticVersionTagReducer`: the `versionsBySha` record (absent keys behave
exactly like the empty list) and the optional `givenTagSha`. -/
structure ReducerState where
  versionsBySha : Str → List Str
  givenTagSha : Option Str

/-- The initial state of `semanticVersionTagReducer`'s closure. -/
def initReducerState : ReducerState :=
  { versionsBySha := fun _ => [], givenTagSha := none }

/-- `containsExactTag` from `fetch.ts` (on a present list; the `undefined`
case coincides with the empty list). -/
def containsExactTag (versions : List Str) : Option Str :=
  versions.find? isExactSemanticVersion

/-- One invocation of the closure returned by
`semanticVersionTagReducer(givenTag)`: the updated captured state paired
with the returned `Option`. -/
def stepReducer (givenTag : Str) (st : ReducerState) (t : Tag) :
    ReducerState × Option Str :=
  let sha := t.commit.sha
  let version := t.name
  let stAndEarly :=
    if version = givenTag then
      let st' : ReducerState := { st with givenTagSha := some sha }
      (st', containsExactTag (st'.versionsBySha sha))
    else (st, none)
  let st' := stAndEarly.1
  match stAndEarly.2 with
  | some e => (st', some e)
  | none =>
    if ¬ isExactSemanticVersion version then (st', none)
    else if st'.givenTagSha = some sha then (st', some version)
    else
      ({ st' with
          versionsBySha := fun k =>
            if k = sha then st'.versionsBySha sha ++ [version]
            else st'.versionsBySha k },
       none)

/-- The tag-stream loop of `findExactSemanticVersionTag`: feed the tags to
the reducer in stream order and stop at the first `some`. -/
def runTagFold (givenTag : Str) (st : ReducerState) : List Tag → Option Str
  | [] => none
  | t :: ts =>
    match stepReducer givenTag st t with
    | (_, some e) => some e
    | (st', none) => runTagFold givenTag st' ts

/-- `findExactSemanticVersionTag` from `fetch.ts`, with the paginated tag
stream flattened into the list of tags it yields in order. -/
def findExactSemanticVersionTag (slug : RepositorySlug) (target : Str)
    (tags : List Tag) : Except Str Str :=
  if isExactSemanticVersion target then .ok target
  else
    match runTagFold target initReducerState tags with
    | some e => .ok e
    | none =>
      .error (str "Expected to find an exact semantic version tag matching " ++
        target ++ str " for " ++ slug.owner ++ str "/" ++ slug.repository)

/-! ## Asset matcher (`fetch.ts`) -/

/-- One release asset as consumed by `findMatchingReleaseAssetMetadata`:
optional label, optional name, url. -/
structure Asset where
  label : Option Str
  name : Option Str
  url : Str
deriving DecidableEq, Repr

/-- `ReleaseAssetMetadata` from `fetch.ts` (the `name` field is always set
to `asset.name || ''` by the matcher). -/
structure ReleaseAssetMetadata where
  binaryName : Option Str
  url : Str
  name : Str
deriving DecidableEq, Repr

/-- The observable outcome of `findMatchingReleaseAssetMetadata`: a normal
return, a thrown `Error` with its message, or a `TypeError` crash from
dereferencing `undefined`. -/
inductive FindResult where
  | ok (r : ReleaseAssetMetadata)
  | err (msg : Str)
  | crash
deriving DecidableEq, Repr

/-- JavaScript `name.replace(/\.[^.]+$/, '')`: drop a final extension — a
dot followed by one or more non-dot characters at the end. -/
def stripExt (nm : Str) : Str :=
  let r := nm.reverse
  let ext := r.takeWhile (fun c => c ≠ '.')
  match r.dropWhile (fun c => c ≠ '.') with
  | '.' :: rest => if ext.isEmpty then nm else rest.reverse
  | _ => nm

/-- The `endsWithPlatform` helper inside the unnamed branch of
`findMatchingReleaseAssetMetadata`. -/
def endsWithPlatform (targetTriple targetDuple udupVal : Str) (hasU : Bool)
    (nm : Str) : Bool :=
  let filenameWithoutExt := stripExt nm
  endsWith filenameWithoutExt targetTriple ||
  endsWith filenameWithoutExt targetDuple ||
  (hasU && endsWith filenameWithoutExt udupVal)

/-- The per-asset filter predicate of the unnamed branch: the label or the
name ends (before the extension) with a platform identifier. -/
def unnamedMatch (targetTriple targetDuple udupVal : Str) (hasU : Bool)
    (a : Asset) : Bool :=
  (match a.label with
   | some l => endsWithPlatform targetTriple targetDuple udupVal hasU l
   | none => false) ||
  (match a.name with
   | some n => endsWithPlatform targetTriple targetDuple udupVal hasU n
   | none => false)

/-- The match-field heuristic of the unnamed branch: `asset.label` when the
label ends (unstripped) with the triple or the hyphen duple, else
`asset.name!` (which may be `undefined`). -/
def heuristicField (targetTriple targetDuple : Str) (a : Asset) : Option Str :=
  let labelMatches :=
    match a.label with
    | some l => endsWith l targetTriple || endsWith l targetDuple
    | none => false
  if labelMatches then a.label else a.name

/-- The per-asset match predicate of the named branch: label or name equals
one of the candidate strings. -/
def namedMatch (cand1 cand2 cand3 : Str) (hasU : Bool) (a : Asset) : Bool :=
  (match a.label with
   | some l => l = cand1 || l = cand2 || (hasU && l = cand3)
   | none => false) ||
  (match a.name with
   | some n => n = cand1 || n = cand2 || (hasU && n = cand3)
   | none => false)

/-- JavaScript `formats.join(" or ")`. -/
def joinOr : List Str → Str
  | [] => []
  | [f] => f
  | f :: rest => f ++ str " or " ++ joinOr rest

/-- Decimal rendering of a count, as JavaScript template literals produce. -/
def natToStr (n : Nat) : Str := (Nat.repr n).data

/-- `findMatchingReleaseAssetMetadata` from `fetch.ts`.  The optional
`targetDupleUnderscore` parameter is `udup`; JavaScript truthiness of the
`targetDupleUnderscore` string is the `hasU` guard (absent or empty means
falsy). -/
def findMatchingReleaseAssetMetadata (assets : List Asset)
    (slug : RepositorySlug) (binaryName : Option Str) (tag : Str)
    (targetTriple targetDuple : Str) (udup : Option Str) : FindResult :=
  let udupVal := udup.getD []
  let hasU := !udupVal.isEmpty
  match binaryName with
  | some bn =>
    let targetLabelTraditional := bn ++ '-' :: targetTriple
    let targetLabelDuple := bn ++ '-' :: targetDuple
    let targetLabelDupleUnderscore := if hasU then bn ++ '_' :: udupVal else []
    match assets.find?
        (namedMatch targetLabelTraditional targetLabelDuple
          targetLabelDupleUnderscore hasU) with
    | none =>
      let formats := [targetLabelTraditional, targetLabelDuple] ++
        (if hasU then [targetLabelDupleUnderscore] else [])
      .err (str "Expected to find asset in release " ++ slug.owner ++
        str "/" ++ slug.repository ++ str "@" ++ tag ++
        str " with label or name " ++ joinOr formats)
    | some a =>
      .ok { binaryName := some bn, url := a.url, name := a.name.getD [] }
  | none =>
    let matching :=
      assets.filter (unnamedMatch targetTriple targetDuple udupVal hasU)
    let formats := [targetTriple, targetDuple] ++
      (if hasU then [udupVal] else [])
    match matching with
    | [] =>
      .err (str "Expected to find asset in release " ++ slug.owner ++
        str "/" ++ slug.repository ++ str "@" ++ tag ++
        str " with label or name containing platform identifier " ++
        joinOr formats ++
        str " at the end of the filename (before the extension)")
    | [a] =>
      match heuristicField targetTriple targetDuple a with
      | some matchField =>
        .ok { binaryName := stripTargetTriple matchField, url := a.url,
              name := a.name.getD [] }
      | none => .crash
    | _ :: _ :: _ =>
      .err (str "Ambiguous targets: expected to find a single asset in release " ++
        slug.owner ++ str "/" ++ slug.repository ++ str "@" ++ tag ++
        str " containing platform identifier " ++ joinOr formats ++
        str " at the end of the filename (before the extension), but found " ++
        natToStr matching.length ++
        str ".\n\nTo resolve, specify the desired binary with the target format " ++
        slug.owner ++ str "/" ++ slug.repository ++ str "/<binary-name>@" ++ tag)

/-! ## Target-spec parser (modelled from the spec)

The module `parse.ts` (defining `parseTargetReleases`) is not among the
provided sources; only its test file is.  The definitions below are
modelled from the spec, §4.2. -/

/-- `TargetRelease` per the spec data model. -/
structure TargetRelease where
  slug : RepositorySlug
  binaryName : Option Str
  tag : Str
  checksum : Option Str
deriving DecidableEq, Repr

/-- Whitespace characters for trimming and splitting. -/
def isWsChar (c : Char) : Bool := c = ' ' || c = '\t' || c = '\n' || c = '\r'

/-- Accumulator automaton splitting on whitespace runs: `cur` holds the
characters of the current token in reverse order. -/
def splitWsAux (cur : Str) : Str → List Str
  | [] => if cur.isEmpty then [] else [cur.reverse]
  | c :: cs =>
    if isWsChar c then
      if cur.isEmpty then splitWsAux [] cs
      else cur.reverse :: splitWsAux [] cs
    else splitWsAux (c :: cur) cs

/-- Split a string on runs of whitespace, dropping empty pieces (this also
trims surrounding whitespace). -/
def splitWs (s : Str) : List Str := splitWsAux [] s

/-- Split a string at every occurrence of a separator character. -/
def splitOnChar (sep : Char) : Str → List Str
  | [] => [[]]
  | c :: cs =>
    if c = sep then [] :: splitOnChar sep cs
    else
      match splitOnChar sep cs with
      | [] => [[c]]
      | t :: ts => (c :: t) :: ts

/-- Modelled from the spec: an `owner`, `repository` or `binaryName`
component — nonempty, excluding `/`, `@` and whitespace. -/
def validSlugComponent (s : Str) : Bool :=
  ¬ s.isEmpty && s.all (fun c => c ≠ '/' && c ≠ '@' && ¬ isWsChar c)

/-- A lowercase hexadecimal digit. -/
def isHexLower (c : Char) : Bool :=
  ('0' ≤ c && c ≤ '9') || ('a' ≤ c && c ≤ 'f')

/-- Modelled from the spec: the checksum suffix `sha256-` followed by
exactly 64 lowercase hex characters. -/
def parseChecksum (s : Str) : Option Str :=
  if s.take 7 = str "sha256-" && (s.drop 7).length = 64 &&
      (s.drop 7).all isHexLower then
    some (s.drop 7)
  else none

/-- Modelled from the spec: parse one target token
`owner "/" repository ["/" binaryName] "@" tag [":sha256-" checksum]`,
returning one diagnostic message on failure. -/
def parseTarget (tok : Str) : Except Str TargetRelease :=
  let slugPart := tok.takeWhile (fun c => c ≠ '@')
  match tok.dropWhile (fun c => c ≠ '@') with
  | '@' :: rest =>
    let verPart := rest.takeWhile (fun c => c ≠ ':')
    let finish := fun (ow re : Str) (bn : Option Str) =>
      if ¬ isSemanticVersion verPart then
        .error (str "invalid version in target " ++ tok)
      else
        match rest.dropWhile (fun c => c ≠ ':') with
        | [] => .ok (TargetRelease.mk ⟨ow, re⟩ bn verPart none)
        | ':' :: sumPart =>
          match parseChecksum sumPart with
          | some h => .ok (TargetRelease.mk ⟨ow, re⟩ bn verPart (some h))
          | none => .error (str "invalid checksum in target " ++ tok)
        | _ => .error (str "invalid target " ++ tok)
    match splitOnChar '/' slugPart with
    | [ow, re] =>
      if validSlugComponent ow && validSlugComponent re then
        finish ow re none
      else .error (str "invalid repository slug in target " ++ tok)
    | [ow, re, bn] =>
      if validSlugComponent ow && validSlugComponent re &&
          validSlugComponent bn then
        finish ow re (some bn)
      else .error (str "invalid repository slug in target " ++ tok)
    | _ => .error (str "invalid repository slug in target " ++ tok)
  | _ => .error (str "missing version in target " ++ tok)

/-- Modelled from the spec: `parseTargetReleases` from the missing module
`parse.ts` — trim, split on whitespace runs, parse every token, fail with
the collected diagnostics when the input has no tokens or any token fails,
otherwise return the records in input order. -/
def parseTargetReleases (input : Str) : Except (List Str) (List TargetRelease) :=
  let tokens := splitWs input
  if tokens.isEmpty then .error [str "no targets specified"]
  else
    let results := tokens.map parseTarget
    let errs := results.flatMap fun r =>
      match r with
      | .error e => [e]
      | .ok _ => []
    if errs.isEmpty then
      .ok (results.filterMap fun r =>
        match r with
        | .ok v => some v
        | .error _ => none)
    else .error errs

/-! ## General helper lemmas -/

set_option maxRecDepth 8000

/-- A list is never equal to itself extended by a nonempty suffix. -/
theorem self_ne_append {α : Type} (v p : List α) (hp : p ≠ []) : v ≠ v ++ p := by
  intro h
  have hl := congrArg List.length h
  rw [List.length_append] at hl
  have hz : p.length = 0 := by omega
  exact hp (List.length_eq_zero.mp hz)

/-- If neither of two lists is a suffix of the other, the first is not a
suffix of anything ending in the second. -/
theorem not_suffix_append {α : Type} {c b : List α} (a : List α)
    (h1 : ¬ c <:+ b) (h2 : ¬ b <:+ c) : ¬ c <:+ a ++ b := by
  intro h
  rcases List.suffix_or_suffix_of_suffix h (List.suffix_append a b) with h' | h'
  · exact h1 h'
  · exact h2 h'

/-- A list of the form `name ++ p` cannot equal a list that does not have
`p` as a suffix. -/
theorem append_ne_of_not_suffix {p T : Str} (name : Str) (h : ¬ p <:+ T) :
    name ++ p ≠ T := by
  intro hEq
  exact h (hEq ▸ List.suffix_append name p)

theorem endsWith_true_iff {v pat : Str} : endsWith v pat = true ↔ pat <:+ v := by
  simp [endsWith]

/-- Anchored replace removes its pattern from a value ending in it. -/
theorem replacePat_append (name pat : Str) : replacePat (name ++ pat) pat = name := by
  unfold replacePat
  rw [if_pos (endsWith_true_iff.mpr (List.suffix_append name pat))]
  simp

/-- Anchored replace leaves a value alone when the pattern is not a suffix. -/
theorem replacePat_id {v pat : Str} (h : ¬ pat <:+ v) : replacePat v pat = v := by
  unfold replacePat
  rw [if_neg]
  simp [endsWith_true_iff, h]

theorem replaceTriple_strip (name t : Str) :
    replaceTriple (name ++ '-' :: t) t = name := replacePat_append name ('-' :: t)

theorem replaceTriple_id {v t : Str} (h : ¬ ('-' :: t) <:+ v) :
    replaceTriple v t = v := replacePat_id h

theorem replaceDuple_strip_hyphen (name d : Str) :
    replaceDuple (name ++ '-' :: d) d = name := by
  unfold replaceDuple
  rw [if_pos]
  · simp
  · simp [endsWith_true_iff]

theorem replaceDuple_strip_underscore (name d : Str) :
    replaceDuple (name ++ '_' :: d) d = name := by
  unfold replaceDuple
  rw [if_pos]
  · simp
  · simp [endsWith_true_iff]

theorem replaceDuple_id {v d : Str} (h1 : ¬ ('-' :: d) <:+ v)
    (h2 : ¬ ('_' :: d) <:+ v) : replaceDuple v d = v := by
  unfold replaceDuple
  rw [if_neg]
  simp [endsWith_true_iff, h1, h2]

/-- `stripTargetTriple` returns `none` exactly on the enumerated triples
and duples. -/
theorem stripTargetTriple_eq_none_iff (v : Str) :
    stripTargetTriple v = none ↔ v ∈ ALL_TARGET_TRIPLES ∨ v ∈ TARGET_DUPLES := by
  unfold stripTargetTriple
  split_ifs <;> simp_all
  split_ifs <;> simp_all

/-! ## Claim C7 -/

/-- C7 counterexample: the claim says `getTargetDuple` and its underscore
variant fail for every unsupported architecture, but with the supported
platform `linux` and the unsupported architecture `mips` both return the
amd64 duple instead of failing. -/
theorem getTargetDuple_unsupported_arch_counterexample :
    getTargetDuple (str "mips") (str "linux") = .ok (str "linux-amd64") ∧
    getTargetDupleUnderscore (str "mips") (str "linux") = .ok (str "linux_amd64") := by
  decide

/-- C7 (amended): `getTargetDuple` and `getTargetDupleUnderscore` fail
exactly when the operating system is outside darwin/linux; the architecture
value never causes a failure (anything other than `arm64` is treated as
amd64). -/
theorem getTargetDuple_ok_iff_supported_platform (arch platform : Str) :
    ((getTargetDuple arch platform).isOk = true ↔
      platform = str "darwin" ∨ platform = str "linux") ∧
    ((getTargetDupleUnderscore arch platform).isOk = true ↔
      platform = str "darwin" ∨ platform = str "linux") := by
  unfold getTargetDuple getTargetDupleUnderscore
  constructor <;> (split_ifs with h1 h2 <;> simp_all [Except.isOk, Except.toBool])

/-! ## Claim C8 -/

/-- C8: a version reference already satisfying the exact-version grammar is
returned unchanged by `findExactSemanticVersionTag`, for every tag stream —
in particular the result does not depend on (consume) the stream. -/
theorem findExactSemanticVersionTag_exact_identity (slug : RepositorySlug)
    (target : Str) (tags : List Tag)
    (h : isExactSemanticVersion target = true) :
    findExactSemanticVersionTag slug target tags = .ok target := by
  unfold findExactSemanticVersionTag
  rw [if_pos h]

/-- C8 witness. -/
theorem findExactSemanticVersionTag_exact_identity_witness :
    isExactSemanticVersion (str "v1.2.3") = true ∧
    findExactSemanticVersionTag ⟨str "foo", str "bar"⟩ (str "v1.2.3")
      [⟨str "v9.9.9", ⟨str "beef"⟩⟩] = .ok (str "v1.2.3") :=
  ⟨by decide,
   findExactSemanticVersionTag_exact_identity ⟨str "foo", str "bar"⟩
     (str "v1.2.3") [⟨str "v9.9.9", ⟨str "beef"⟩⟩] (by decide)⟩

/-! ## Claim C10 -/

/-- C10: evaluating the code at the failing input.  In unnamed mode, an
asset whose label matches only via the underscore duple and which has no
`name` field drives `findMatchingReleaseAssetMetadata` into dereferencing
`undefined` (`asset.name!` followed by `.replace`), a `TypeError` crash
rather than a documented NotFound/Ambiguous error. -/
theorem unnamed_label_only_match_crashes :
    findMatchingReleaseAssetMetadata
      [⟨some (str "bin_linux_amd64"), none, str "u1"⟩]
      ⟨str "testowner", str "testrepo"⟩ none (str "v1.0.0")
      (str "aarch64-apple-darwin") (str "darwin-arm64")
      (some (str "linux_amd64")) = .crash := by decide

/-! ## Claim C4 -/

/-- C4 counterexample: with the duple-labelled asset listed first, named
mode returns the duple asset (url `u2`), not the triple asset (url `u1`):
the result is not independent of the order of the two assets. -/
theorem named_mode_asset_order_counterexample :
    findMatchingReleaseAssetMetadata
      [⟨some (str "testbin-darwin-arm64"), none, str "u2"⟩,
       ⟨some (str "testbin-aarch64-apple-darwin"), none, str "u1"⟩]
      ⟨str "testowner", str "testrepo"⟩ (some (str "testbin")) (str "v1.0.0")
      (str "aarch64-apple-darwin") (str "darwin-arm64") none =
      .ok ⟨some (str "testbin"), str "u2", []⟩ ∧
    str "u2" ≠ str "u1" := by decide

/-- C4 (amended): named mode takes the first asset in list order whose
label or name equals any candidate; in particular, whenever the asset
labelled `name-triple` is listed first it is returned, whatever follows. -/
theorem named_mode_first_asset_wins (slug : RepositorySlug)
    (bn tag triple duple : Str) (udup : Option Str) (nm : Option Str)
    (u : Str) (rest : List Asset) :
    findMatchingReleaseAssetMetadata
      (⟨some (bn ++ '-' :: triple), nm, u⟩ :: rest) slug (some bn) tag
      triple duple udup = .ok ⟨some bn, u, nm.getD []⟩ := by
  simp only [findMatchingReleaseAssetMetadata]
  rw [List.find?_cons_of_pos _ (by simp [namedMatch])]

/-! ## Claim C1 (counterexample) -/

/-- C1 counterexample: the stream contains the non-exact reference `v1`
with sha `aaaa` and the exact tag `v1.2.3` with the same sha, yet the fold
resolves to `v1.0.0` (an earlier exact tag on that sha), not to `v1.2.3`:
the claim fails for streams holding a second exact tag on the same sha. -/
theorem reducer_resolution_counterexample :
    isExactSemanticVersion (str "v1") = false ∧
    isExactSemanticVersion (str "v1.2.3") = true ∧
    (⟨str "v1", ⟨str "aaaa"⟩⟩ : Tag) ∈
      ([⟨str "v1.0.0", ⟨str "aaaa"⟩⟩, ⟨str "v1", ⟨str "aaaa"⟩⟩,
        ⟨str "v1.2.3", ⟨str "aaaa"⟩⟩] : List Tag) ∧
    (⟨str "v1.2.3", ⟨str "aaaa"⟩⟩ : Tag) ∈
      ([⟨str "v1.0.0", ⟨str "aaaa"⟩⟩, ⟨str "v1", ⟨str "aaaa"⟩⟩,
        ⟨str "v1.2.3", ⟨str "aaaa"⟩⟩] : List Tag) ∧
    runTagFold (str "v1") initReducerState
      [⟨str "v1.0.0", ⟨str "aaaa"⟩⟩, ⟨str "v1", ⟨str "aaaa"⟩⟩,
       ⟨str "v1.2.3", ⟨str "aaaa"⟩⟩] ≠ some (str "v1.2.3") := by decide

/-! ## Claim C2 (counterexample) -/

/-- C2 counterexample: the single matching asset matched via its label
(`somebin_linux_amd64`, an underscore-duple match), but the returned
`binaryName` is derived from the asset's `name` field (`other-thing`), not
from the stripped matched field (`somebin`). -/
theorem unnamed_match_field_counterexample :
    findMatchingReleaseAssetMetadata
      [⟨some (str "somebin_linux_amd64"), some (str "other-thing"), str "u1"⟩]
      ⟨str "testowner", str "testrepo"⟩ none (str "v1.0.0")
      (str "aarch64-apple-darwin") (str "darwin-arm64")
      (some (str "linux_amd64")) =
      .ok ⟨some (str "other-thing"), str "u1", str "other-thing"⟩ ∧
    stripTargetTriple (str "somebin_linux_amd64") = some (str "somebin") ∧
    some (str "other-thing") ≠ some (str "somebin") := by decide

/-! ## Claim C1 (amended theorem) -/

theorem stepReducer_given_hit {r : Str} {st : ReducerState} {t : Tag} {x : Str}
    (h : t.name = r)
    (hC : containsExactTag (st.versionsBySha t.commit.sha) = some x) :
    stepReducer r st t = ({ st with givenTagSha := some t.commit.sha }, some x) := by
  simp [stepReducer, h, hC]

theorem stepReducer_given_miss {r : Str} {st : ReducerState} {t : Tag}
    (h : t.name = r) (hne : isExactSemanticVersion r = false)
    (hC : containsExactTag (st.versionsBySha t.commit.sha) = none) :
    stepReducer r st t = ({ st with givenTagSha := some t.commit.sha }, none) := by
  simp [stepReducer, h, hC, hne]

theorem stepReducer_skip {r : Str} {st : ReducerState} {t : Tag}
    (h : ¬ t.name = r) (hx : isExactSemanticVersion t.name = false) :
    stepReducer r st t = (st, none) := by
  simp [stepReducer, h, hx]

theorem stepReducer_exact_hit {r : Str} {st : ReducerState} {t : Tag}
    (h : ¬ t.name = r) (hx : isExactSemanticVersion t.name = true)
    (hs : st.givenTagSha = some t.commit.sha) :
    stepReducer r st t = (st, some t.name) := by
  simp [stepReducer, h, hx, hs]

theorem stepReducer_exact_record {r : Str} {st : ReducerState} {t : Tag}
    (h : ¬ t.name = r) (hx : isExactSemanticVersion t.name = true)
    (hs : st.givenTagSha ≠ some t.commit.sha) :
    stepReducer r st t =
      ({ st with versionsBySha := fun k =>
          if k = t.commit.sha then st.versionsBySha t.commit.sha ++ [t.name]
          else st.versionsBySha k }, none) := by
  simp [stepReducer, h, hx, hs]

theorem mem_of_mem_cons_ne {α : Type} {a b : α} {l : List α}
    (h : a ∈ b :: l) (hne : a ≠ b) : a ∈ l := by
  rcases List.mem_cons.mp h with hc | hc
  · exact absurd hc hne
  · exact hc

theorem containsExactTag_all_e {l : List Str} {e : Str}
    (hall : ∀ v ∈ l, v = e) (he : isExactSemanticVersion e = true)
    (hne : l ≠ []) : containsExactTag l = some e := by
  cases l with
  | nil => exact absurd rfl hne
  | cons v vs =>
    have hv : v = e := hall v (by simp)
    subst hv
    rw [containsExactTag, List.find?_cons_of_pos _ he]

/-- The resolution invariant of the reducer's closure, carried through the
remaining stream: either the given tag's sha is already known and a
matching exact tag is still to come, or the sha is unknown but a matching
exact tag is already recorded (or still to come) and the given tag is
still to come. -/
theorem runTagFold_resolves_aux (r e S : Str)
    (hne : isExactSemanticVersion r = false)
    (he : isExactSemanticVersion e = true) :
    ∀ (rest : List Tag) (st : ReducerState),
      (∀ t ∈ rest, t.name = r → t.commit.sha = S) →
      (∀ t ∈ rest, isExactSemanticVersion t.name = true →
        t.commit.sha = S → t.name = e) →
      (∀ v ∈ st.versionsBySha S, v = e) →
      ((st.givenTagSha = some S ∧
          ∃ t ∈ rest, t.name = e ∧ t.commit.sha = S) ∨
       (st.givenTagSha = none ∧ st.versionsBySha S ≠ [] ∧
          ∃ t ∈ rest, t.name = r) ∨
       (st.givenTagSha = none ∧ (∃ t ∈ rest, t.name = r) ∧
          ∃ t ∈ rest, t.name = e ∧ t.commit.sha = S)) →
      runTagFold r st rest = some e := by
  intro rest
  induction rest with
  | nil =>
    intro st _ _ _ hcase
    rcases hcase with ⟨_, t, ht, _⟩ | ⟨_, _, t, ht, _⟩ | ⟨_, ⟨t, ht, _⟩, _⟩ <;>
      simp at ht
  | cons t ts ih =>
    intro st hr hx hver hcase
    have her : e ≠ r := fun hc => by simp [hc, hne] at he
    have hrts : ∀ t' ∈ ts, t'.name = r → t'.commit.sha = S :=
      fun t' ht' => hr t' (by simp [ht'])
    have hxts : ∀ t' ∈ ts, isExactSemanticVersion t'.name = true →
        t'.commit.sha = S → t'.name = e :=
      fun t' ht' => hx t' (by simp [ht'])
    by_cases hname : t.name = r
    · have hsha : t.commit.sha = S := hr t (by simp) hname
      by_cases hnil : st.versionsBySha S = []
      · have hC : containsExactTag (st.versionsBySha t.commit.sha) = none := by
          rw [hsha, hnil]; rfl
        simp only [runTagFold, stepReducer_given_miss hname hne hC]
        refine ih { st with givenTagSha := some t.commit.sha } hrts hxts hver ?_
        refine Or.inl ⟨by rw [hsha], ?_⟩
        rcases hcase with ⟨_, t', ht', hte, hts⟩ | ⟨_, hnonempty, _⟩ |
            ⟨_, _, t', ht', hte, hts⟩
        · have : t' ≠ t := fun hc => her (by rw [← hte, hc, hname])
          exact ⟨t', mem_of_mem_cons_ne ht' this, hte, hts⟩
        · exact absurd hnil hnonempty
        · have : t' ≠ t := fun hc => her (by rw [← hte, hc, hname])
          exact ⟨t', mem_of_mem_cons_ne ht' this, hte, hts⟩
      · have hC : containsExactTag (st.versionsBySha t.commit.sha) = some e := by
          rw [hsha]; exact containsExactTag_all_e hver he hnil
        simp only [runTagFold, stepReducer_given_hit hname hC]
    · by_cases hex : isExactSemanticVersion t.name = true
      · by_cases hsS : t.commit.sha = S
        · have hte : t.name = e := hx t (by simp) hex hsS
          rcases hcase with ⟨hgs, _⟩ | ⟨hgs, hnonempty, t', ht', htr⟩ |
              ⟨hgs, ⟨t', ht', htr⟩, _⟩
          · have hs : st.givenTagSha = some t.commit.sha := by rw [hsS, hgs]
            simp only [runTagFold, stepReducer_exact_hit hname hex hs, hte]
          · have hs : st.givenTagSha ≠ some t.commit.sha := by
              rw [hgs]; exact Option.noConfusion
            simp only [runTagFold, stepReducer_exact_record hname hex hs]
            refine ih _ hrts hxts ?_ ?_
            · intro v hv
              simp only [hsS, if_pos rfl] at hv
              rcases List.mem_append.mp hv with hv' | hv'
              · exact hver v hv'
              · rw [List.mem_singleton.mp hv', hte]
            · refine Or.inr (Or.inl ⟨hgs, ?_, ?_⟩)
              · simp only [hsS, if_pos rfl]
                simp
              · have : t' ≠ t := fun hc => hname (by rw [← hc, htr])
                exact ⟨t', mem_of_mem_cons_ne ht' this, htr⟩
          · have hs : st.givenTagSha ≠ some t.commit.sha := by
              rw [hgs]; exact Option.noConfusion
            simp only [runTagFold, stepReducer_exact_record hname hex hs]
            refine ih _ hrts hxts ?_ ?_
            · intro v hv
              simp only [hsS, if_pos rfl] at hv
              rcases List.mem_append.mp hv with hv' | hv'
              · exact hver v hv'
              · rw [List.mem_singleton.mp hv', hte]
            · refine Or.inr (Or.inl ⟨hgs, ?_, ?_⟩)
              · simp only [hsS, if_pos rfl]
                simp
              · have : t' ≠ t := fun hc => hname (by rw [← hc, htr])
                exact ⟨t', mem_of_mem_cons_ne ht' this, htr⟩
        · have hupd : ∀ st' : ReducerState,
              st' = { st with versionsBySha := fun k =>
                if k = t.commit.sha then st.versionsBySha t.commit.sha ++ [t.name]
                else st.versionsBySha k } →
              st'.versionsBySha S = st.versionsBySha S := by
            intro st' hst'
            rw [hst']
            simp only []
            rw [if_neg (fun hc => hsS hc.symm)]
          rcases hcase with ⟨hgs, t', ht', hte, hts⟩ | ⟨hgs, hnonempty, t', ht', htr⟩ |
              ⟨hgs, ⟨t', ht', htr⟩, t'', ht'', hte'', hts''⟩
          · have hs : st.givenTagSha ≠ some t.commit.sha := by
              rw [hgs]
              intro hc
              exact hsS (Option.some.inj hc).symm
            simp only [runTagFold, stepReducer_exact_record hname hex hs]
            refine ih _ hrts hxts ?_ ?_
            · intro v hv
              rw [hupd _ rfl] at hv
              exact hver v hv
            · refine Or.inl ⟨by simp [hgs], ?_⟩
              have : t' ≠ t := fun hc => hsS (by rw [← hc, hts])
              exact ⟨t', mem_of_mem_cons_ne ht' this, hte, hts⟩
          · have hs : st.givenTagSha ≠ some t.commit.sha := by
              rw [hgs]; exact Option.noConfusion
            simp only [runTagFold, stepReducer_exact_record hname hex hs]
            refine ih _ hrts hxts ?_ ?_
            · intro v hv
              rw [hupd _ rfl] at hv
              exact hver v hv
            · refine Or.inr (Or.inl ⟨hgs, by rw [hupd _ rfl]; exact hnonempty, ?_⟩)
              have : t' ≠ t := fun hc => hname (by rw [← hc, htr])
              exact ⟨t', mem_of_mem_cons_ne ht' this, htr⟩
          · have hs : st.givenTagSha ≠ some t.commit.sha := by
              rw [hgs]; exact Option.noConfusion
            simp only [runTagFold, stepReducer_exact_record hname hex hs]
            refine ih _ hrts hxts ?_ ?_
            · intro v hv
              rw [hupd _ rfl] at hv
              exact hver v hv
            · refine Or.inr (Or.inr ⟨hgs, ?_, ?_⟩)
              · have : t' ≠ t := fun hc => hname (by rw [← hc, htr])
                exact ⟨t', mem_of_mem_cons_ne ht' this, htr⟩
              · have : t'' ≠ t := fun hc => hsS (by rw [← hc, hts''])
                exact ⟨t'', mem_of_mem_cons_ne ht'' this, hte'', hts''⟩
      · have hexf : isExactSemanticVersion t.name = false :=
          Bool.not_eq_true _ ▸ (by simpa using hex)
        simp only [runTagFold, stepReducer_skip hname hexf]
        refine ih st hrts hxts hver ?_
        have htne : t.name ≠ e := fun hc => by rw [hc, he] at hexf; cases hexf
        rcases hcase with ⟨hgs, t', ht', hte, hts⟩ | ⟨hgs, hnonempty, t', ht', htr⟩ |
            ⟨hgs, ⟨t', ht', htr⟩, t'', ht'', hte'', hts''⟩
        · refine Or.inl ⟨hgs, ?_⟩
          have : t' ≠ t := fun hc => htne (by rw [← hc, hte])
          exact ⟨t', mem_of_mem_cons_ne ht' this, hte, hts⟩
        · refine Or.inr (Or.inl ⟨hgs, hnonempty, ?_⟩)
          have : t' ≠ t := fun hc => hname (by rw [← hc, htr])
          exact ⟨t', mem_of_mem_cons_ne ht' this, htr⟩
        · refine Or.inr (Or.inr ⟨hgs, ?_, ?_⟩)
          · have : t' ≠ t := fun hc => hname (by rw [← hc, htr])
            exact ⟨t', mem_of_mem_cons_ne ht' this, htr⟩
          · have : t'' ≠ t := fun hc => htne (by rw [← hc, hte''])
            exact ⟨t'', mem_of_mem_cons_ne ht'' this, hte'', hts''⟩

/-- C1 (amended): for every non-exact reference `r` and stream containing
a tag `(r, S)` and an exact tag `(e, S)`, where every tag named `r` carries
sha `S` and `e` is the only exact tag name carried by sha `S`, the fold
resolves to `e`, in either order of the two tags. -/
theorem reducer_resolves_matching_exact (r e S : Str) (tags : List Tag)
    (hne : isExactSemanticVersion r = false)
    (he : isExactSemanticVersion e = true)
    (hr : ∀ t ∈ tags, t.name = r → t.commit.sha = S)
    (hx : ∀ t ∈ tags, isExactSemanticVersion t.name = true →
      t.commit.sha = S → t.name = e)
    (hrmem : ∃ t ∈ tags, t.name = r ∧ t.commit.sha = S)
    (hemem : ∃ t ∈ tags, t.name = e ∧ t.commit.sha = S) :
    runTagFold r initReducerState tags = some e := by
  refine runTagFold_resolves_aux r e S hne he tags initReducerState hr hx ?_ ?_
  · intro v hv
    simp [initReducerState] at hv
  · exact Or.inr (Or.inr ⟨rfl,
      ⟨hrmem.choose, hrmem.choose_spec.1, hrmem.choose_spec.2.1⟩, hemem⟩)

/-- C1 witness (exact-tag-first order). -/
theorem reducer_resolves_matching_exact_witness :
    runTagFold (str "v1") initReducerState
      [⟨str "v1.2.3", ⟨str "aaaa"⟩⟩, ⟨str "v1", ⟨str "aaaa"⟩⟩] =
      some (str "v1.2.3") :=
  reducer_resolves_matching_exact (str "v1") (str "v1.2.3") (str "aaaa")
    [⟨str "v1.2.3", ⟨str "aaaa"⟩⟩, ⟨str "v1", ⟨str "aaaa"⟩⟩]
    (by decide) (by decide) (by decide) (by decide) (by decide) (by decide)

/-! ## Claim C9 -/

/-- Assemble an input from token/whitespace pairs. -/
def flatPairs : List (Str × Str) → Str
  | [] => []
  | (t, w) :: ps => t ++ w ++ flatPairs ps

/-- Well-formed token/whitespace pairs: tokens are nonempty and
whitespace-free, separators are whitespace, and every separator except
possibly the last is nonempty. -/
def goodPairs : List (Str × Str) → Prop
  | [] => True
  | (t, w) :: ps =>
    t ≠ [] ∧ (∀ c ∈ t, isWsChar c = false) ∧ (∀ c ∈ w, isWsChar c = true) ∧
    (ps = [] ∨ (w ≠ [] ∧ goodPairs ps))

instance goodPairsDec : (ps : List (Str × Str)) → Decidable (goodPairs ps)
  | [] => .isTrue trivial
  | (t, w) :: ps => by
    unfold goodPairs
    have := goodPairsDec ps
    infer_instance

theorem splitWsAux_ws (w : Str) (hw : ∀ c ∈ w, isWsChar c = true) :
    ∀ s, splitWsAux [] (w ++ s) = splitWsAux [] s := by
  induction w with
  | nil => simp
  | cons c w' ih =>
    intro s
    have hc : isWsChar c = true := hw c (by simp)
    simp only [List.cons_append, splitWsAux, hc, if_true, List.isEmpty_nil]
    exact ih (fun c' hc' => hw c' (by simp [hc'])) s

theorem splitWsAux_token (tk : Str) (htk : ∀ c ∈ tk, isWsChar c = false) :
    ∀ (cur s : Str), splitWsAux cur (tk ++ s) = splitWsAux (tk.reverse ++ cur) s := by
  induction tk with
  | nil => simp
  | cons c tk' ih =>
    intro cur s
    have hc : isWsChar c = false := htk c (by simp)
    simp only [List.cons_append, splitWsAux, hc, Bool.false_eq_true, if_false,
      List.append_eq]
    rw [ih (fun c' h' => htk c' (by simp [h'])) (c :: cur) s]
    simp [List.reverse_cons, List.append_assoc]

theorem splitWsAux_flush (cur : Str) (hcur : cur ≠ []) (w : Str)
    (hw : ∀ c ∈ w, isWsChar c = true) (s : Str) (hne : w ≠ [] ∨ s = []) :
    splitWsAux cur (w ++ s) = cur.reverse :: splitWsAux [] s := by
  have hcur' : cur.isEmpty = false := by
    cases cur
    · exact absurd rfl hcur
    · rfl
  cases w with
  | nil =>
    rcases hne with h | h
    · exact absurd rfl h
    · subst h
      simp [splitWsAux, hcur']
  | cons c w' =>
    have hc : isWsChar c = true := hw c (by simp)
    simp only [List.cons_append, splitWsAux, hc, if_true, hcur', Bool.false_eq_true,
      if_false, List.append_eq]
    rw [splitWsAux_ws w' (fun c' hc' => hw c' (by simp [hc'])) s]

theorem splitWs_flatPairs (ps : List (Str × Str)) (h : goodPairs ps) :
    splitWs (flatPairs ps) = ps.map Prod.fst := by
  induction ps with
  | nil => rfl
  | cons p ps ih =>
    obtain ⟨t, w⟩ := p
    obtain ⟨ht, htk, hw, hrest⟩ := h
    show splitWsAux [] (t ++ w ++ flatPairs ps) = t :: ps.map Prod.fst
    rw [List.append_assoc, splitWsAux_token t htk [] (w ++ flatPairs ps),
      List.append_nil]
    have htrev : t.reverse ≠ [] := by
      intro hc
      exact ht (by simpa using congrArg List.reverse hc)
    rcases hrest with rfl | ⟨hwne, hgood⟩
    · rw [show flatPairs [] = [] from rfl,
        splitWsAux_flush t.reverse htrev w hw [] (Or.inr rfl)]
      simp [splitWsAux]
    · rw [splitWsAux_flush t.reverse htrev w hw (flatPairs ps) (Or.inl hwne),
        List.reverse_reverse]
      exact congrArg _ (ih hgood)

theorem parse_results_ok (tokens : List Str)
    (h : ∀ tk ∈ tokens, (parseTarget tk).isOk = true) :
    ((tokens.map parseTarget).flatMap fun r =>
      match r with
      | .error e => [e]
      | .ok _ => []) = [] ∧
    List.Forall₂ (fun tk rec => parseTarget tk = .ok rec) tokens
      ((tokens.map parseTarget).filterMap fun r =>
        match r with
        | .ok v => some v
        | .error _ => none) := by
  induction tokens with
  | nil => exact ⟨rfl, List.Forall₂.nil⟩
  | cons tk tks ih =>
    have hok := h tk (by simp)
    obtain ⟨v, hv⟩ : ∃ v, parseTarget tk = .ok v := by
      cases hpt : parseTarget tk with
      | ok v => exact ⟨v, rfl⟩
      | error e => rw [hpt] at hok; simp [Except.isOk, Except.toBool] at hok
    obtain ⟨ih1, ih2⟩ := ih (fun tk' h' => h tk' (by simp [h']))
    constructor
    · simp only [List.map_cons, List.flatMap_cons, hv]
      simpa using ih1
    · simp only [List.map_cons, List.filterMap_cons, hv]
      exact List.Forall₂.cons hv ih2

/-- C9: parsing an input assembled from n well-formed tokens separated by
arbitrary whitespace runs succeeds with exactly n records, one per token in
input order; an input with no tokens, or with any malformed token, fails
wholesale with at least one diagnostic and no partial results. -/
theorem parseTargetReleases_spec :
    (∀ (ws0 : Str) (ps : List (Str × Str)),
      (∀ c ∈ ws0, isWsChar c = true) → goodPairs ps → ps ≠ [] →
      (∀ p ∈ ps, (parseTarget p.1).isOk = true) →
      ∃ rs, parseTargetReleases (ws0 ++ flatPairs ps) = .ok rs ∧
        rs.length = ps.length ∧
        List.Forall₂ (fun tk rec => parseTarget tk = .ok rec)
          (ps.map Prod.fst) rs) ∧
    (∀ input : Str,
      splitWs input = [] ∨
        (∃ tk ∈ splitWs input, (parseTarget tk).isOk = false) →
      ∃ es, parseTargetReleases input = .error es ∧ es ≠ []) := by
  constructor
  · intro ws0 ps hws hgood hne hok
    have htok : splitWs (ws0 ++ flatPairs ps) = ps.map Prod.fst := by
      rw [splitWs, splitWsAux_ws ws0 hws]
      exact splitWs_flatPairs ps hgood
    obtain ⟨h1, h2⟩ := parse_results_ok (ps.map Prod.fst) (fun tk htk => by
      obtain ⟨p, hp, rfl⟩ := List.mem_map.mp htk
      exact hok p hp)
    have hempty : (ps.map Prod.fst).isEmpty = false := by
      cases ps
      · exact absurd rfl hne
      · rfl
    refine ⟨((ps.map Prod.fst).map parseTarget).filterMap fun r =>
      match r with
      | .ok v => some v
      | .error _ => none, ?_, ?_, h2⟩
    · unfold parseTargetReleases
      rw [htok]
      simp only [hempty, Bool.false_eq_true, if_false, h1, List.isEmpty_nil,
        if_true]
    · have := List.Forall₂.length_eq h2
      simpa using this.symm
  · intro input hfail
    rcases hfail with hemp | ⟨tk, htk, hbad⟩
    · refine ⟨[str "no targets specified"], ?_, by simp⟩
      unfold parseTargetReleases
      rw [hemp]
      rfl
    · obtain ⟨m, hm⟩ : ∃ m, parseTarget tk = .error m := by
        cases hpt : parseTarget tk with
        | ok v => rw [hpt] at hbad; simp [Except.isOk, Except.toBool] at hbad
        | error e => exact ⟨e, rfl⟩
      have hempty : (splitWs input).isEmpty = false := by
        cases hsw : splitWs input
        · rw [hsw] at htk; simp at htk
        · rfl
      have hmem : m ∈ ((splitWs input).map parseTarget).flatMap fun r =>
          match r with
          | .error e => [e]
          | .ok _ => [] := by
        refine List.mem_flatMap.mpr ⟨parseTarget tk, List.mem_map_of_mem _ htk, ?_⟩
        rw [hm]
        simp
      have herrne : (((splitWs input).map parseTarget).flatMap fun r =>
          match r with
          | .error e => [e]
          | .ok _ => []) ≠ [] := List.ne_nil_of_mem hmem
      have herrempty : (((splitWs input).map parseTarget).flatMap fun r =>
          match r with
          | .error e => [e]
          | .ok _ => []).isEmpty = false := by
        cases hl : ((splitWs input).map parseTarget).flatMap fun r =>
            match r with
            | .error e => [e]
            | .ok _ => []
        · exact absurd hl herrne
        · rfl
      refine ⟨_, ?_, herrne⟩
      unfold parseTargetReleases
      simp only [hempty, Bool.false_eq_true, if_false, herrempty]

/-- C9 witness. -/
theorem parseTargetReleases_spec_witness :
    (∃ rs, parseTargetReleases (str " " ++ flatPairs
        [(str "foo/bar@v1", str "\n"), (str "qux/baz@v2.3.4", [])]) = .ok rs ∧
      rs.length = ([(str "foo/bar@v1", str "\n"),
        (str "qux/baz@v2.3.4", ([] : Str))]).length ∧
      List.Forall₂ (fun tk rec => parseTarget tk = .ok rec)
        (([(str "foo/bar@v1", str "\n"),
          (str "qux/baz@v2.3.4", ([] : Str))]).map Prod.fst) rs) ∧
    (∃ es, parseTargetReleases (str "foo/bar") = .error es ∧ es ≠ []) :=
  ⟨parseTargetReleases_spec.1 (str " ")
      [(str "foo/bar@v1", str "\n"), (str "qux/baz@v2.3.4", [])]
      (by decide) (by decide) (by decide) (by decide),
   parseTargetReleases_spec.2 (str "foo/bar") (by decide)⟩

/-! ## Claim C2 (amended theorem) -/

/-- C2 (amended): in unnamed mode with exactly one matching asset, the
returned `binaryName` is the platform-suffix-stripped value of the field
selected by the result heuristic — the label when the label ends
(unstripped) with the triple or the hyphen duple, otherwise the asset's
`name` — and that value is absent exactly when the selected field is itself
a known triple/duple. -/
theorem unnamed_single_match_binary_name (assets : List Asset)
    (slug : RepositorySlug) (tag triple duple : Str) (udup : Option Str)
    (a : Asset) (f : Str)
    (hm : assets.filter
        (unnamedMatch triple duple (udup.getD []) (!(udup.getD []).isEmpty)) = [a])
    (hf : heuristicField triple duple a = some f) :
    findMatchingReleaseAssetMetadata assets slug none tag triple duple udup =
      .ok ⟨stripTargetTriple f, a.url, a.name.getD []⟩ ∧
    (stripTargetTriple f = none ↔
      f ∈ ALL_TARGET_TRIPLES ∨ f ∈ TARGET_DUPLES) := by
  constructor
  · simp only [findMatchingReleaseAssetMetadata, hm, hf]
  · exact stripTargetTriple_eq_none_iff f

/-- C2 witness. -/
theorem unnamed_single_match_binary_name_witness :
    findMatchingReleaseAssetMetadata
      [⟨some (str "somebin-darwin-arm64"), none, str "u1"⟩]
      ⟨str "o", str "r"⟩ none (str "v1.0.0") (str "aarch64-apple-darwin")
      (str "darwin-arm64") none =
      .ok ⟨stripTargetTriple (str "somebin-darwin-arm64"), str "u1", []⟩ ∧
    (stripTargetTriple (str "somebin-darwin-arm64") = none ↔
      (str "somebin-darwin-arm64") ∈ ALL_TARGET_TRIPLES ∨
      (str "somebin-darwin-arm64") ∈ TARGET_DUPLES) :=
  unnamed_single_match_binary_name
    [⟨some (str "somebin-darwin-arm64"), none, str "u1"⟩]
    ⟨str "o", str "r"⟩ (str "v1.0.0") (str "aarch64-apple-darwin")
    (str "darwin-arm64") none
    ⟨some (str "somebin-darwin-arm64"), none, str "u1"⟩
    (str "somebin-darwin-arm64") (by decide) (by decide)

/-! ## Claim C5 -/

/-- C5: in unnamed mode, whenever more than one asset's label-or-name
(after stripping a final extension) ends with the triple, the duple or the
supplied underscore duple, the matcher throws with exactly the documented
Ambiguous message, where the count is the number of matches and the third
format is listed iff the underscore duple was supplied. -/
theorem unnamed_ambiguous_error_message (assets : List Asset)
    (slug : RepositorySlug) (tag triple duple : Str) (udup : Option Str)
    (hU : udup ≠ some ([] : Str))
    (h2 : 2 ≤ (assets.filter
      (unnamedMatch triple duple (udup.getD []) (!(udup.getD []).isEmpty))).length) :
    findMatchingReleaseAssetMetadata assets slug none tag triple duple udup =
      .err (str "Ambiguous targets: expected to find a single asset in release " ++
        slug.owner ++ str "/" ++ slug.repository ++ str "@" ++ tag ++
        str " containing platform identifier " ++
        (match udup with
         | some u => triple ++ str " or " ++ duple ++ str " or " ++ u
         | none => triple ++ str " or " ++ duple) ++
        str " at the end of the filename (before the extension), but found " ++
        natToStr (assets.filter
          (unnamedMatch triple duple (udup.getD []) (!(udup.getD []).isEmpty))).length ++
        str ".\n\nTo resolve, specify the desired binary with the target format " ++
        slug.owner ++ str "/" ++ slug.repository ++ str "/<binary-name>@" ++ tag) := by
  simp only [findMatchingReleaseAssetMetadata]
  rcases hfil : assets.filter
      (unnamedMatch triple duple (udup.getD []) (!(udup.getD []).isEmpty)) with
    _ | ⟨a, _ | ⟨b, l⟩⟩
  · rw [hfil] at h2; simp at h2
  · rw [hfil] at h2; simp at h2
  · cases udup with
    | none => simp [joinOr, List.append_assoc]
    | some u =>
      have hu : u.isEmpty = false := by
        cases hue : u.isEmpty
        · rfl
        · exact absurd (by rw [List.isEmpty_iff.mp hue]) hU
      simp [joinOr, hu, List.append_assoc]

/-- C5 witness. -/
theorem unnamed_ambiguous_error_message_witness :
    findMatchingReleaseAssetMetadata
      [⟨some (str "bin1-aarch64-apple-darwin"), none, str "u1"⟩,
       ⟨some (str "bin2-aarch64-apple-darwin"), none, str "u2"⟩]
      ⟨str "testowner", str "testrepo"⟩ none (str "v1.0.0")
      (str "aarch64-apple-darwin") (str "darwin-arm64") none =
      .err (str "Ambiguous targets: expected to find a single asset in release " ++
        str "testowner" ++ str "/" ++ str "testrepo" ++ str "@" ++ str "v1.0.0" ++
        str " containing platform identifier " ++
        (str "aarch64-apple-darwin" ++ str " or " ++ str "darwin-arm64") ++
        str " at the end of the filename (before the extension), but found " ++
        natToStr ([⟨some (str "bin1-aarch64-apple-darwin"), none, str "u1"⟩,
          (⟨some (str "bin2-aarch64-apple-darwin"), none, str "u2"⟩ : Asset)].filter
          (unnamedMatch (str "aarch64-apple-darwin") (str "darwin-arm64")
            ((none : Option Str).getD [])
            (!((none : Option Str).getD []).isEmpty))).length ++
        str ".\n\nTo resolve, specify the desired binary with the target format " ++
        str "testowner" ++ str "/" ++ str "testrepo" ++ str "/<binary-name>@" ++
        str "v1.0.0") :=
  unnamed_ambiguous_error_message
    [⟨some (str "bin1-aarch64-apple-darwin"), none, str "u1"⟩,
     ⟨some (str "bin2-aarch64-apple-darwin"), none, str "u2"⟩]
    ⟨str "testowner", str "testrepo"⟩ (str "v1.0.0")
    (str "aarch64-apple-darwin") (str "darwin-arm64") none
    (by decide) (by decide)

/-! ## Claim C6 -/

/-- C6: in named mode, when no asset's label or name equals any candidate
string, the matcher throws with exactly the documented NotFound message,
listing two candidates when no underscore duple is supplied and three when
it is. -/
theorem named_not_found_error_message (assets : List Asset)
    (slug : RepositorySlug) (bn tag triple duple : Str) (udup : Option Str)
    (hU : udup ≠ some ([] : Str))
    (hno : ∀ a ∈ assets,
      ∀ c ∈ ([bn ++ '-' :: triple, bn ++ '-' :: duple] ++
        (match udup with
         | some u => [bn ++ '_' :: u]
         | none => [])),
      a.label ≠ some c ∧ a.name ≠ some c) :
    findMatchingReleaseAssetMetadata assets slug (some bn) tag triple duple udup =
      .err (str "Expected to find asset in release " ++ slug.owner ++ str "/" ++
        slug.repository ++ str "@" ++ tag ++ str " with label or name " ++
        (match udup with
         | some u => (bn ++ '-' :: triple) ++ str " or " ++
             (bn ++ '-' :: duple) ++ str " or " ++ (bn ++ '_' :: u)
         | none => (bn ++ '-' :: triple) ++ str " or " ++ (bn ++ '-' :: duple))) := by
  simp only [findMatchingReleaseAssetMetadata]
  cases udup with
  | none =>
    have hfind : assets.find? (namedMatch (bn ++ '-' :: triple)
        (bn ++ '-' :: duple)
        (if !((none : Option Str).getD []).isEmpty then bn ++ '_' :: (none : Option Str).getD [] else [])
        (!((none : Option Str).getD []).isEmpty)) = none := by
      rw [List.find?_eq_none]
      intro a ha
      have h1 := hno a ha (bn ++ '-' :: triple) (by simp)
      have h2 := hno a ha (bn ++ '-' :: duple) (by simp)
      obtain ⟨lab, anm, aurl⟩ := a
      simp only [namedMatch]
      cases lab <;> cases anm <;> simp_all
    rw [hfind]
    simp [joinOr, List.append_assoc]
  | some u =>
    have hu : u.isEmpty = false := by
      cases hue : u.isEmpty
      · rfl
      · exact absurd (by rw [List.isEmpty_iff.mp hue]) hU
    have hfind : assets.find? (namedMatch (bn ++ '-' :: triple)
        (bn ++ '-' :: duple)
        (if !((some u : Option Str).getD []).isEmpty then bn ++ '_' :: (some u : Option Str).getD [] else [])
        (!((some u : Option Str).getD []).isEmpty)) = none := by
      rw [List.find?_eq_none]
      intro a ha
      have h1 := hno a ha (bn ++ '-' :: triple) (by simp)
      have h2 := hno a ha (bn ++ '-' :: duple) (by simp)
      have h3 := hno a ha (bn ++ '_' :: u) (by simp)
      obtain ⟨lab, anm, aurl⟩ := a
      simp only [namedMatch]
      cases lab <;> cases anm <;> simp_all [hu]
    rw [hfind]
    simp [joinOr, hu, List.append_assoc]

/-- C6 witness. -/
theorem named_not_found_error_message_witness :
    findMatchingReleaseAssetMetadata
      [⟨some (str "otherbin-aarch64-apple-darwin"), none, str "u1"⟩]
      ⟨str "testowner", str "testrepo"⟩ (some (str "testbin")) (str "v1.0.0")
      (str "aarch64-apple-darwin") (str "darwin-arm64")
      (some (str "linux_amd64")) =
      .err (str "Expected to find asset in release " ++ str "testowner" ++
        str "/" ++ str "testrepo" ++ str "@" ++ str "v1.0.0" ++
        str " with label or name " ++
        ((str "testbin" ++ '-' :: str "aarch64-apple-darwin") ++ str " or " ++
          (str "testbin" ++ '-' :: str "darwin-arm64") ++ str " or " ++
          (str "testbin" ++ '_' :: str "linux_amd64"))) :=
  named_not_found_error_message
    [⟨some (str "otherbin-aarch64-apple-darwin"), none, str "u1"⟩]
    ⟨str "testowner", str "testrepo"⟩ (str "testbin") (str "v1.0.0")
    (str "aarch64-apple-darwin") (str "darwin-arm64")
    (some (str "linux_amd64")) (by decide) (by decide)

/-! ## Claim C3 (helper lemmas) -/

/-- A value of the form `name ++ p` is not in a list none of whose members
end in `p`. -/
theorem not_mem_of_no_suffix (name p : Str) (L : List Str)
    (h : ∀ T ∈ L, ¬ p <:+ T) : name ++ p ∉ L :=
  fun hm => h _ hm (List.suffix_append name p)

/-- A triple-stripping fold pass leaves a value alone when no listed
pattern is a suffix of it. -/
theorem foldl_replaceTriple_id (v : Str) (L : List Str)
    (h : ∀ t ∈ L, ¬ ('-' :: t) <:+ v) : L.foldl replaceTriple v = v := by
  induction L with
  | nil => rfl
  | cons t ts ih =>
    rw [List.foldl_cons, replaceTriple_id (h t (by simp))]
    exact ih fun t' ht' => h t' (by simp [ht'])

/-- A duple-stripping fold pass leaves a value alone when no listed pattern
(in either spelling) is a suffix of it. -/
theorem foldl_replaceDuple_id (v : Str) (L : List Str)
    (h : ∀ d ∈ L, ¬ ('-' :: d) <:+ v ∧ ¬ ('_' :: d) <:+ v) :
    L.foldl replaceDuple v = v := by
  induction L with
  | nil => rfl
  | cons d ds ih =>
    rw [List.foldl_cons, replaceDuple_id (h d (by simp)).1 (h d (by simp)).2]
    exact ih fun d' hd' => h d' (by simp [hd'])

/-- Pairwise non-suffix facts between triple patterns. -/
theorem triple_patterns_indep :
    ∀ a ∈ ALL_TARGET_TRIPLES, ∀ b ∈ ALL_TARGET_TRIPLES, a ≠ b →
      ¬ ('-' :: a) <:+ ('-' :: b) := by decide

/-- No triple pattern ends a bare triple. -/
theorem triple_pattern_not_in_triples :
    ∀ a ∈ ALL_TARGET_TRIPLES, ∀ T ∈ ALL_TARGET_TRIPLES,
      ¬ ('-' :: a) <:+ T := by decide

/-- No triple pattern ends a bare duple. -/
theorem triple_pattern_not_in_duples :
    ∀ a ∈ ALL_TARGET_TRIPLES, ∀ D ∈ TARGET_DUPLES,
      ¬ ('-' :: a) <:+ D := by decide

/-- No duple pattern (either spelling) ends a bare triple. -/
theorem duple_pattern_not_in_triples :
    ∀ a ∈ TARGET_DUPLES, ∀ T ∈ ALL_TARGET_TRIPLES,
      ¬ ('-' :: a) <:+ T ∧ ¬ ('_' :: a) <:+ T := by decide

/-- No duple pattern (either spelling) ends a bare duple. -/
theorem duple_pattern_not_in_duples :
    ∀ a ∈ TARGET_DUPLES, ∀ D ∈ TARGET_DUPLES,
      ¬ ('-' :: a) <:+ D ∧ ¬ ('_' :: a) <:+ D := by decide

/-- Triple patterns and duple patterns never end one another. -/
theorem triple_duple_patterns_indep :
    ∀ t ∈ ALL_TARGET_TRIPLES, ∀ d ∈ TARGET_DUPLES,
      (¬ ('-' :: t) <:+ ('-' :: d)) ∧ (¬ ('-' :: t) <:+ ('_' :: d)) ∧
      (¬ ('-' :: d) <:+ ('-' :: t)) ∧ (¬ ('_' :: d) <:+ ('-' :: t)) := by decide

/-- Pairwise non-suffix facts between duple patterns of distinct duples. -/
theorem duple_patterns_indep :
    ∀ a ∈ TARGET_DUPLES, ∀ b ∈ TARGET_DUPLES, a ≠ b →
      (¬ ('-' :: a) <:+ ('-' :: b)) ∧ (¬ ('_' :: a) <:+ ('-' :: b)) ∧
      (¬ ('-' :: a) <:+ ('_' :: b)) ∧ (¬ ('_' :: a) <:+ ('_' :: b)) := by decide

/-- The two spellings of one duple pattern never end one another. -/
theorem duple_spellings_indep :
    ∀ a ∈ TARGET_DUPLES,
      ¬ ('_' :: a) <:+ ('-' :: a) ∧ ¬ ('-' :: a) <:+ ('_' :: a) := by decide

/-- The name does not end in any recognized platform-suffix pattern. -/
def noPlatformSuffix (name : Str) : Prop :=
  (∀ t ∈ ALL_TARGET_TRIPLES, ¬ ('-' :: t) <:+ name) ∧
  (∀ d ∈ TARGET_DUPLES, ¬ ('-' :: d) <:+ name ∧ ¬ ('_' :: d) <:+ name)

instance (name : Str) : Decidable (noPlatformSuffix name) := by
  unfold noPlatformSuffix
  infer_instance

/-- Appending a triple suffix to a suffix-free name and stripping recovers
the name. -/
theorem strip_triple_append (name : Str) (h : noPlatformSuffix name)
    (t : Str) (ht : t ∈ ALL_TARGET_TRIPLES) :
    stripTargetTriple (name ++ '-' :: t) = some name := by
  have hnd : ALL_TARGET_TRIPLES.Nodup := by decide
  obtain ⟨pre, post, hsplit⟩ := List.append_of_mem ht
  have hndm : (t :: (pre ++ post)).Nodup := List.nodup_middle.mp (hsplit ▸ hnd)
  have htpre : t ∉ pre := fun hp =>
    (List.nodup_cons.mp hndm).1 (List.mem_append.mpr (Or.inl hp))
  have hfold : ALL_TARGET_TRIPLES.foldl replaceTriple (name ++ '-' :: t) = name := by
    rw [hsplit, List.foldl_append,
      foldl_replaceTriple_id _ pre (fun t' ht' => by
        have ht'T : t' ∈ ALL_TARGET_TRIPLES := hsplit ▸ (by simp [ht'])
        have hne : t' ≠ t := fun he => htpre (he ▸ ht')
        exact not_suffix_append name
          (triple_patterns_indep t' ht'T t ht hne)
          (triple_patterns_indep t ht t' ht'T hne.symm)),
      List.foldl_cons, replaceTriple_strip,
      foldl_replaceTriple_id _ post (fun t' ht' =>
        h.1 t' (hsplit ▸ (by simp [ht'])))]
  unfold stripTargetTriple
  rw [if_neg (not_mem_of_no_suffix _ _ _
        (fun T hT => triple_pattern_not_in_triples t ht T hT)),
      if_neg (not_mem_of_no_suffix _ _ _
        (fun D hD => triple_pattern_not_in_duples t ht D hD))]
  simp only [hfold]
  rw [if_pos (self_ne_append name ('-' :: t) (by simp))]

/-- Appending a duple suffix (either separator) to a suffix-free name and
stripping recovers the name. -/
theorem strip_duple_append (name : Str) (h : noPlatformSuffix name)
    (d : Str) (hd : d ∈ TARGET_DUPLES) (sep : Char)
    (hsep : sep = '-' ∨ sep = '_') :
    stripTargetTriple (name ++ sep :: d) = some name := by
  have hnd : TARGET_DUPLES.Nodup := by decide
  obtain ⟨pre, post, hsplit⟩ := List.append_of_mem hd
  have hndm : (d :: (pre ++ post)).Nodup := List.nodup_middle.mp (hsplit ▸ hnd)
  have hdpre : d ∉ pre := fun hp =>
    (List.nodup_cons.mp hndm).1 (List.mem_append.mpr (Or.inl hp))
  have hTfold : ALL_TARGET_TRIPLES.foldl replaceTriple (name ++ sep :: d) =
      name ++ sep :: d := by
    refine foldl_replaceTriple_id _ _ (fun t' ht' => ?_)
    have hfacts := triple_duple_patterns_indep t' ht' d hd
    rcases hsep with rfl | rfl
    · exact not_suffix_append name hfacts.1 hfacts.2.2.1
    · exact not_suffix_append name hfacts.2.1 hfacts.2.2.2
  have hpre : ∀ d' ∈ pre, ¬ ('-' :: d') <:+ (name ++ sep :: d) ∧
      ¬ ('_' :: d') <:+ (name ++ sep :: d) := by
    intro d' hd'
    have hd'D : d' ∈ TARGET_DUPLES := hsplit ▸ (by simp [hd'])
    have hne : d' ≠ d := fun he => hdpre (he ▸ hd')
    have hf := duple_patterns_indep d' hd'D d hd hne
    have hg := duple_patterns_indep d hd d' hd'D hne.symm
    rcases hsep with rfl | rfl
    · exact ⟨not_suffix_append name hf.1 hg.1,
        not_suffix_append name hf.2.1 hg.2.2.1⟩
    · exact ⟨not_suffix_append name hf.2.2.1 hg.2.1,
        not_suffix_append name hf.2.2.2 hg.2.2.2⟩
  have hDfold : TARGET_DUPLES.foldl replaceDuple (name ++ sep :: d) = name := by
    rw [hsplit, List.foldl_append, foldl_replaceDuple_id _ pre hpre,
      List.foldl_cons]
    have hstep : replaceDuple (name ++ sep :: d) d = name := by
      rcases hsep with rfl | rfl
      · exact replaceDuple_strip_hyphen name d
      · exact replaceDuple_strip_underscore name d
    rw [hstep, foldl_replaceDuple_id _ post (fun d' hd' =>
      h.2 d' (hsplit ▸ (by simp [hd'])))]
  unfold stripTargetTriple
  rw [if_neg (not_mem_of_no_suffix _ (sep :: d) _ (fun T hT => by
        rcases hsep with rfl | rfl
        · exact (duple_pattern_not_in_triples d hd T hT).1
        · exact (duple_pattern_not_in_triples d hd T hT).2)),
      if_neg (not_mem_of_no_suffix _ (sep :: d) _ (fun D hD => by
        rcases hsep with rfl | rfl
        · exact (duple_pattern_not_in_duples d hd D hD).1
        · exact (duple_pattern_not_in_duples d hd D hD).2))]
  simp only [hTfold, hDfold]
  rw [if_neg (fun hss => hss rfl),
    if_pos (self_ne_append name (sep :: d) (by simp))]

/-! ## Claim C3 (counterexample) -/

/-- C3 counterexample: with `name = "foo-aarch64-unknown-linux-musl"` and
the triple `aarch64-apple-darwin`, stripping `name ++ "-" ++ triple` yields
`some "foo"`, not `some name`: the reduce strips a second recognized suffix
from the already-stripped value instead of stopping at the first match. -/
theorem stripTargetTriple_double_strip_counterexample :
    (str "aarch64-apple-darwin") ∈ ALL_TARGET_TRIPLES ∧
    stripTargetTriple
      (str "foo-aarch64-unknown-linux-musl" ++ '-' :: str "aarch64-apple-darwin") =
      some (str "foo") ∧
    some (str "foo") ≠ some (str "foo-aarch64-unknown-linux-musl") := by decide

/-- C3 (amended): for every name that does not itself end in a recognized
platform-suffix pattern, appending `"-" ++ triple` (for each enumerated
triple) or a separator plus duple (for each enumerated duple, either
separator) and stripping returns `present(name)`; without that restriction
the reduce may strip again from the already-stripped value, as the
counterexample shows. -/
theorem stripTargetTriple_appended_identity (name : Str)
    (h : noPlatformSuffix name) :
    (∀ t ∈ ALL_TARGET_TRIPLES,
      stripTargetTriple (name ++ '-' :: t) = some name) ∧
    (∀ d ∈ TARGET_DUPLES,
      stripTargetTriple (name ++ '-' :: d) = some name ∧
      stripTargetTriple (name ++ '_' :: d) = some name) :=
  ⟨fun t ht => strip_triple_append name h t ht,
   fun d hd => ⟨strip_duple_append name h d hd '-' (Or.inl rfl),
     strip_duple_append name h d hd '_' (Or.inr rfl)⟩⟩

/-- C3 witness. -/
theorem stripTargetTriple_appended_identity_witness :
    stripTargetTriple (str "foo" ++ '-' :: str "aarch64-apple-darwin") =
      some (str "foo") ∧
    stripTargetTriple (str "foo" ++ '_' :: str "linux_amd64") =
      some (str "foo") :=
  ⟨(stripTargetTriple_appended_identity (str "foo") (by decide)).1
      (str "aarch64-apple-darwin") (by decide),
   ((stripTargetTriple_appended_identity (str "foo") (by decide)).2
      (str "linux_amd64") (by decide)).2⟩
